import Mathlib

/-
Verification of the conversion layer of Convert_multiple_json_files.py:
field normalizer (clean_multiline_field), row mapper (json_to_csv_rows),
and the three format encoders (convert_multiple_json_to_csv,
convert_json_to_excel, convert_json_to_json).

Modelling conventions:
- Python values reachable from parsed JSON are modelled by `PyVal`.
  JSON numbers are modelled as integers; floating-point numbers are out
  of scope of this development.
- Python exceptions raised by the conversion code (AttributeError from
  calling .replace on a non-string, TypeError from str.join on
  non-string elements) are modelled with `Except PyError`.
- Reading an uploaded file and json.load-ing its bytes is abstracted to
  its outcome (`ParsedFile`): either a parsed value or a parse failure
  (json.JSONDecodeError / TypeError, both caught by the source).
- UTF-8 encoding of the produced text is abstracted: encoders return
  the text itself as a `String`.
- The csv.writer of the source uses the default dialect: delimiter
  a comma, quotechar a double quote, QUOTE_MINIMAL, lineterminator CRLF.
- pandas.DataFrame(list_of_dicts) is modelled as a table whose columns
  are the union of the documents' keys in order of first appearance and
  whose missing cells are NaN (modelled as Option.none); to_excel's
  binary container is abstracted to the table it serializes, plus the
  flag recording whether the header-mismatch error message was shown.
-/

namespace JsonToCsv

/-- A Python value as produced by json.load: strings, numbers (modelled
as integers), booleans, None, lists and dicts. -/
inductive PyVal where
  | str (s : String)
  | int (n : Int)
  | bool (b : Bool)
  | null
  | list (xs : List PyVal)
  | dict (fields : List (String × PyVal))

/-- The Python exceptions the conversion layer can raise (and does not
catch): AttributeError from `text.replace` on a non-string, TypeError
from `", ".join` on a list with non-string elements. -/
inductive PyError where
  | attributeError
  | typeError
deriving DecidableEq

instance : DecidableEq (Except PyError String) := fun a b =>
  match a, b with
  | .ok x, .ok y =>
    if h : x = y then .isTrue (by rw [h]) else .isFalse (by simp [h])
  | .ok _, .error _ => .isFalse (by simp)
  | .error _, .ok _ => .isFalse (by simp)
  | .error x, .error y =>
    if h : x = y then .isTrue (by rw [h]) else .isFalse (by simp [h])

/-- The outcome of uploading one file and json.load-ing it: a parsed
value, or a parse failure (caught and reported by the source). -/
inductive ParsedFile where
  | ok (doc : PyVal)
  | parseError

/-- Python truthiness (`if text:`) for the modelled values. -/
def pyTruthy : PyVal → Bool
  | .str s => !s.isEmpty
  | .int n => n != 0
  | .bool b => b
  | .null => false
  | .list xs => !xs.isEmpty
  | .dict fs => !fs.isEmpty

/-- Python `text.replace("\n", " | ")` for the fixed one-character
pattern: every newline character becomes a space, a pipe and a space. -/
def replaceNewline (s : String) : String :=
  String.mk (s.data.flatMap fun c => if c = '\n' then [' ', '|', ' '] else [c])

/-- The element strings of a list being joined: str elements are kept,
a non-str element raises TypeError (str.join type-checks each). -/
def strList : List PyVal → Except PyError (List String)
  | [] => .ok []
  | .str s :: rest =>
    match strList rest with
    | .ok ss => .ok (s :: ss)
    | .error e => .error e
  | _ :: _ => .error .typeError

/-- Python `", ".join(xs)`: succeeds with the strings interleaved with
the separator when every element is a string, raises TypeError at a
non-string element. -/
def joinPyStrs (xs : List PyVal) : Except PyError String :=
  match strList xs with
  | .ok ss => .ok (String.intercalate ", " ss)
  | .error e => .error e

/-- The join step of the field normalizer: a list value is replaced by
the string joining its elements; every other value passes through. -/
def cleanJoin : PyVal → Except PyError PyVal
  | .list xs =>
    match joinPyStrs xs with
    | .ok s => .ok (.str s)
    | .error e => .error e
  | v => .ok v

/-- The field normalizer of the source (clean_multiline_field): a list
is first joined with ", "; then, if the value is truthy, it must be a
string and its newlines are replaced by " | "; a falsy value yields the
empty string.  A truthy non-string (a nonzero number, True, a nonempty
dict) raises AttributeError because `.replace` does not exist on it. -/
def clean_multiline_field (text : PyVal) : Except PyError String :=
  match cleanJoin text with
  | .error e => .error e
  | .ok t =>
    if pyTruthy t then
      match t with
      | .str s => .ok (replaceNewline s)
      | _ => .error .attributeError
    else
      .ok ""

/-- Python dict lookup by key (keys of a parsed JSON object are
distinct, so first match is the match). -/
def lookupField : List (String × PyVal) → String → Option PyVal
  | [], _ => none
  | (k, x) :: fs, key => if k = key then some x else lookupField fs key

/-- Python `json_data.get(column, "")`: a dict yields the stored value
or the empty string; any other receiver has no `.get` and raises
AttributeError. -/
def pyGet (v : PyVal) (key : String) : Except PyError PyVal :=
  match v with
  | .dict fs =>
    match lookupField fs key with
    | some x => .ok x
    | none => .ok (.str "")
  | _ => .error .attributeError

/-- The row mapper of the source (json_to_csv_rows): for each column in
order, look the field up with default "", normalize it, and append. -/
def json_to_csv_rows (json_data : PyVal) (columns : List String) :
    Except PyError (List String) :=
  match columns with
  | [] => .ok []
  | c :: cs =>
    match pyGet json_data c with
    | .error e => .error e
    | .ok v =>
      match clean_multiline_field v with
      | .error e => .error e
      | .ok s =>
        match json_to_csv_rows json_data cs with
        | .error e => .error e
        | .ok rest => .ok (s :: rest)

/-- A csv.writer field needs quoting (QUOTE_MINIMAL) when it contains
the delimiter, the quote character or a line-terminator character. -/
def needsQuote (s : String) : Bool :=
  s.data.any fun c => c = ',' || c = '"' || c = '\n' || c = '\r'

/-- Doubling of embedded quote characters inside a quoted field. -/
def escapeQuotes (s : String) : String :=
  String.mk (s.data.flatMap fun c => if c = '"' then ['"', '"'] else [c])

/-- One csv field as written by csv.writer with the default dialect. -/
def csvField (s : String) : String :=
  if needsQuote s then "\"" ++ escapeQuotes s ++ "\"" else s

/-- The text of one csv row before its terminator: the fields joined by
the delimiter. -/
def rowText (row : List String) : String :=
  String.intercalate "," (row.map csvField)

/-- One csv row as written by csv.writer.writerow: fields joined by the
delimiter, terminated by the default lineterminator CRLF. -/
def csvLine (row : List String) : String :=
  rowText row ++ "\r\n"

/-- Concatenation of a list of strings. -/
def concatLines : List String → String
  | [] => ""
  | a :: l => a ++ concatLines l

/-- The file-loading loop shared by all three encoders: each file that
parsed is appended to the document list; each file that failed to parse
is skipped and reported with one st.error call (counted here). -/
def loadDocs : List ParsedFile → List PyVal × Nat
  | [] => ([], 0)
  | .ok d :: rest =>
    let p := loadDocs rest
    (d :: p.1, p.2)
  | .parseError :: rest =>
    let p := loadDocs rest
    (p.1, p.2 + 1)

/-- The data-row loop of convert_multiple_json_to_csv: one writerow per
document, in order; an exception from the row mapper propagates. -/
def writeRows (docs : List PyVal) (headers : List String) :
    Except PyError String :=
  match docs with
  | [] => .ok ""
  | d :: ds =>
    match json_to_csv_rows d headers with
    | .error e => .error e
    | .ok row =>
      match writeRows ds headers with
      | .error e => .error e
      | .ok rest => .ok (csvLine row ++ rest)

/-- The delimited-text encoder of the source
(convert_multiple_json_to_csv): load the files, write the header row,
then one row per loaded document. -/
def convert_multiple_json_to_csv (json_files : List ParsedFile)
    (custom_headers : List String) : Except PyError String :=
  match writeRows (loadDocs json_files).1 custom_headers with
  | .error e => .error e
  | .ok s => .ok (csvLine custom_headers ++ s)

/-- pandas column inference for a list of dicts: the union of the keys
in order of first appearance. -/
def inferCols (objs : List (List (String × PyVal))) : List String :=
  objs.foldl
    (fun acc fs =>
      fs.foldl (fun a kv => if a.contains kv.1 then a else a ++ [kv.1]) acc)
    []

/-- The fields of a document when it is an object. -/
def asObj : PyVal → Option (List (String × PyVal))
  | .dict fs => some fs
  | _ => none

/-- The field lists of a document list when every document is an
object (the shape covered by the DataFrame model). -/
def allObjs : List PyVal → Option (List (List (String × PyVal)))
  | [] => some []
  | d :: ds =>
    match asObj d, allObjs ds with
    | some fs, some rest => some (fs :: rest)
    | _, _ => none

/-- The abstraction of the spreadsheet encoder's output: the column
labels and cells the DataFrame serializes (a missing field is NaN,
modelled as none), plus whether the header-count mismatch error message
was shown. -/
structure ExcelResult where
  cols : List String
  rows : List (List (Option PyVal))
  headerError : Bool

/-- The spreadsheet encoder of the source (convert_json_to_excel): load
the files, build the DataFrame from the documents' own keys, then
relabel the columns with the custom headers exactly when the counts
match, otherwise report the mismatch and keep the original labels; the
table is exported either way.  The DataFrame model covers lists of JSON
objects (the data model of this converter: one top-level object per
file); a non-object document is outside the model and yields none. -/
def convert_json_to_excel (json_files : List ParsedFile)
    (custom_headers : List String) : Option ExcelResult :=
  match allObjs (loadDocs json_files).1 with
  | none => none
  | some objs =>
    let cols := inferCols objs
    let rows := objs.map fun fs => cols.map fun c => lookupField fs c
    if custom_headers.length = cols.length then
      some ⟨custom_headers, rows, false⟩
    else
      some ⟨cols, rows, true⟩

/-- Hexadecimal digit characters (lowercase, as json.dumps emits). -/
def digitChar (d : Nat) : Char :=
  match d with
  | 0 => '0'
  | 1 => '1'
  | 2 => '2'
  | 3 => '3'
  | 4 => '4'
  | 5 => '5'
  | 6 => '6'
  | 7 => '7'
  | 8 => '8'
  | 9 => '9'
  | 10 => 'a'
  | 11 => 'b'
  | 12 => 'c'
  | 13 => 'd'
  | 14 => 'e'
  | _ => 'f'

/-- Decimal representation of a natural number, most significant digit
first. -/
def natChars (m : Nat) : List Char :=
  if m = 0 then ['0'] else ((Nat.digits 10 m).map digitChar).reverse

/-- Decimal representation of an integer as json.dumps emits it. -/
def intChars (n : Int) : List Char :=
  if n < 0 then '-' :: natChars n.natAbs else natChars n.toNat

/-- The four hexadecimal digits of a code unit below 0x10000, most
significant first. -/
def uDigits (n : Nat) : List Char :=
  [digitChar (n / 4096 % 16), digitChar (n / 256 % 16),
   digitChar (n / 16 % 16), digitChar (n % 16)]

/-- A four-digit \uXXXX escape for a code unit below 0x10000. -/
def uEscape (n : Nat) : List Char :=
  '\\' :: 'u' :: uDigits n

/-- json.dumps escaping of one character with the default
ensure_ascii=True: the two-character named escapes, \uXXXX for other
control and non-ASCII characters, and a surrogate pair for characters
beyond the basic multilingual plane. -/
def escapeChar (c : Char) : List Char :=
  if c = '"' then ['\\', '"']
  else if c = '\\' then ['\\', '\\']
  else if c = '\n' then ['\\', 'n']
  else if c = '\r' then ['\\', 'r']
  else if c = '\t' then ['\\', 't']
  else if c.toNat = 8 then ['\\', 'b']
  else if c.toNat = 12 then ['\\', 'f']
  else if c.toNat < 32 then uEscape c.toNat
  else if c.toNat < 127 then [c]
  else if c.toNat < 65536 then uEscape c.toNat
  else
    uEscape (55296 + (c.toNat - 65536) / 1024) ++
      uEscape (56320 + (c.toNat - 65536) % 1024)

/-- A JSON string literal as json.dumps emits it. -/
def strChars (s : String) : List Char :=
  '"' :: s.data.flatMap escapeChar ++ ['"']

/-- The indentation emitted by json.dumps(-, indent=4) at one nesting
level. -/
def indentChars (lvl : Nat) : List Char :=
  List.replicate (4 * lvl) ' '

mutual
/-- json.dumps(-, indent=4) of one value at a nesting level: literals
for scalars, and for nonempty containers one element per line, indented
four further spaces, separated by commas, with the closing bracket on
its own line at the enclosing indentation. -/
def jdump : Nat → PyVal → List Char
  | _, .str s => strChars s
  | _, .int n => intChars n
  | _, .bool true => ['t', 'r', 'u', 'e']
  | _, .bool false => ['f', 'a', 'l', 's', 'e']
  | _, .null => ['n', 'u', 'l', 'l']
  | _, .list [] => ['[', ']']
  | lvl, .list (v :: vs) =>
    '[' :: '\n' ::
      (indentChars (lvl + 1) ++ jdumpItems lvl v vs ++
        '\n' :: (indentChars lvl ++ [']']))
  | _, .dict [] => ['\x7b', '\x7d']
  | lvl, .dict (f :: fs) =>
    '\x7b' :: '\n' ::
      (indentChars (lvl + 1) ++ jdumpMembers lvl f fs ++
        '\n' :: (indentChars lvl ++ ['\x7d']))
termination_by lvl v => sizeOf v

/-- The comma-and-newline separated items of a nonempty dumped array
(the indentation of the first item is emitted by the caller, that of
each later item after its separator). -/
def jdumpItems : Nat → PyVal → List PyVal → List Char
  | lvl, v, [] => jdump (lvl + 1) v
  | lvl, v, w :: ws =>
    jdump (lvl + 1) v ++
      ',' :: '\n' :: (indentChars (lvl + 1) ++ jdumpItems lvl w ws)
termination_by lvl v vs => 1 + sizeOf v + sizeOf vs

/-- The comma-and-newline separated members of a nonempty dumped
object, each a dumped key, a colon and a space, and the dumped value. -/
def jdumpMembers : Nat → (String × PyVal) → List (String × PyVal) → List Char
  | lvl, (k, v), [] => strChars k ++ ':' :: ' ' :: jdump (lvl + 1) v
  | lvl, (k, v), g :: gs =>
    strChars k ++ ':' :: ' ' :: jdump (lvl + 1) v ++
      ',' :: '\n' :: (indentChars (lvl + 1) ++ jdumpMembers lvl g gs)
termination_by lvl f fs => 1 + sizeOf f + sizeOf fs
end

/-- The aggregated-JSON encoder of the source (convert_json_to_json):
load the files and serialize the document list as one JSON array with
json.dumps(-, indent=4). -/
def convert_json_to_json (json_files : List ParsedFile) : String :=
  String.mk (jdump 0 (PyVal.list (loadDocs json_files).1))

/-- The orchestrator's JSON download action: it passes only the
uploaded files to convert_json_to_json; the custom headers play no
part. -/
def jsonDownloadAction (json_files : List ParsedFile)
    (custom_headers : List String) : String :=
  convert_json_to_json json_files

mutual
/-- Fuel needed by the parser below on the dumped form of a value. -/
def vsize : PyVal → Nat
  | .str _ => 1
  | .int _ => 1
  | .bool _ => 1
  | .null => 1
  | .list [] => 1
  | .list (v :: vs) => 1 + lsize v vs
  | .dict [] => 1
  | .dict (f :: fs) => 1 + msize f fs
termination_by v => sizeOf v

/-- Fuel needed by the item loop of the parser on a nonempty list. -/
def lsize : PyVal → List PyVal → Nat
  | v, [] => 1 + vsize v
  | v, w :: ws => 1 + vsize v + lsize w ws
termination_by v vs => 1 + sizeOf v + sizeOf vs

/-- Fuel needed by the member loop of the parser on a nonempty dict. -/
def msize : (String × PyVal) → List (String × PyVal) → Nat
  | (_, v), [] => 1 + vsize v
  | (_, v), g :: gs => 1 + vsize v + msize g gs
termination_by f fs => 1 + sizeOf f + sizeOf fs
end

/-- JSON insignificant whitespace. -/
def isWsChar (c : Char) : Bool :=
  c = ' ' || c = '\n' || c = '\r' || c = '\t'

/-- Drop leading insignificant whitespace. -/
def skipWs : List Char → List Char
  | [] => []
  | c :: r => if isWsChar c then skipWs r else c :: r

/-- Decimal digit character test. -/
def isDigitCh (c : Char) : Bool :=
  48 ≤ c.toNat && c.toNat ≤ 57

/-- Split off the longest leading run of decimal digits. -/
def takeDigits : List Char → List Char × List Char
  | [] => ([], [])
  | c :: r =>
    if isDigitCh c then
      let p := takeDigits r
      (c :: p.1, p.2)
    else ([], c :: r)

/-- The natural number denoted by a most-significant-first digit run. -/
def digitsToNat (ds : List Char) : Nat :=
  ds.foldl (fun a c => a * 10 + (c.toNat - 48)) 0

/-- The value of one hexadecimal digit character. -/
def hexVal (c : Char) : Option Nat :=
  if 48 ≤ c.toNat ∧ c.toNat ≤ 57 then some (c.toNat - 48)
  else if 97 ≤ c.toNat ∧ c.toNat ≤ 102 then some (c.toNat - 87)
  else if 65 ≤ c.toNat ∧ c.toNat ≤ 70 then some (c.toNat - 55)
  else none

/-- Four hexadecimal digits, most significant first. -/
def hex4 : List Char → Option (Nat × List Char)
  | a :: b :: c :: d :: r => do
    let x ← hexVal a
    let y ← hexVal b
    let z ← hexVal c
    let w ← hexVal d
    pure (x * 4096 + y * 256 + z * 16 + w, r)
  | _ => none

/-- Decode the remainder of one escape sequence (after the backslash),
including a \uXXXX escape and, for a high surrogate, the paired low
surrogate. -/
def unescape : List Char → Option (Char × List Char)
  | [] => none
  | c :: r =>
    if c = '"' then some ('"', r)
    else if c = '\\' then some ('\\', r)
    else if c = '/' then some ('/', r)
    else if c = 'n' then some ('\n', r)
    else if c = 't' then some ('\t', r)
    else if c = 'r' then some ('\r', r)
    else if c = 'b' then some (Char.ofNat 8, r)
    else if c = 'f' then some (Char.ofNat 12, r)
    else if c = 'u' then
      match hex4 r with
      | some (n, r1) =>
        if 55296 ≤ n ∧ n < 56320 then
          match r1 with
          | c1 :: c2 :: r2 =>
            if c1 = '\\' ∧ c2 = 'u' then
              match hex4 r2 with
              | some (m, r3) =>
                if 56320 ≤ m ∧ m < 57344 then
                  some (Char.ofNat (65536 + ((n - 55296) * 1024 + (m - 56320))), r3)
                else none
              | none => none
            else none
          | _ => none
        else some (Char.ofNat n, r1)
      | none => none
    else none

/-- Parse the body of a JSON string literal (the opening quote already
consumed) up to and beyond the closing quote; the fuel bounds the
number of decoded characters. -/
def parseStrBody : Nat → List Char → Option (List Char × List Char)
  | 0, _ => none
  | _ + 1, [] => none
  | fuel + 1, c :: r =>
    if c = '"' then some ([], r)
    else if c = '\\' then
      match unescape r with
      | some (d, r1) =>
        match parseStrBody fuel r1 with
        | some (s, r2) => some (d :: s, r2)
        | none => none
      | none => none
    else
      match parseStrBody fuel r with
      | some (s, r2) => some (c :: s, r2)
      | none => none

mutual
/-- A recursive-descent JSON value parser; the fuel bounds the nesting
work and is decremented on entering a container's element loop. -/
def parseVal : Nat → List Char → Option (PyVal × List Char)
  | 0, _ => none
  | fuel + 1, input =>
    match skipWs input with
    | [] => none
    | c :: r =>
      if c = '"' then
        match parseStrBody (r.length + 1) r with
        | some (s, r1) => some (PyVal.str (String.mk s), r1)
        | none => none
      else if c = '[' then
        match skipWs r with
        | [] => none
        | d :: r1 =>
          if d = ']' then some (PyVal.list [], r1)
          else
            match parseItems fuel (d :: r1) with
            | some (vs, r2) => some (PyVal.list vs, r2)
            | none => none
      else if c = '\x7b' then
        match skipWs r with
        | [] => none
        | d :: r1 =>
          if d = '\x7d' then some (PyVal.dict [], r1)
          else
            match parseMembers fuel (d :: r1) with
            | some (fs, r2) => some (PyVal.dict fs, r2)
            | none => none
      else if c = 't' then
        match r with
        | c1 :: c2 :: c3 :: r2 =>
          if c1 = 'r' ∧ c2 = 'u' ∧ c3 = 'e' then some (PyVal.bool true, r2)
          else none
        | _ => none
      else if c = 'f' then
        match r with
        | c1 :: c2 :: c3 :: c4 :: r2 =>
          if c1 = 'a' ∧ c2 = 'l' ∧ c3 = 's' ∧ c4 = 'e' then
            some (PyVal.bool false, r2)
          else none
        | _ => none
      else if c = 'n' then
        match r with
        | c1 :: c2 :: c3 :: r2 =>
          if c1 = 'u' ∧ c2 = 'l' ∧ c3 = 'l' then some (PyVal.null, r2)
          else none
        | _ => none
      else if c = '-' then
        match takeDigits r with
        | ([], _) => none
        | (ds, r2) => some (PyVal.int (-(digitsToNat ds : Int)), r2)
      else if isDigitCh c then
        let p := takeDigits r
        some (PyVal.int (digitsToNat (c :: p.1) : Int), p.2)
      else none
termination_by fuel input => fuel

/-- The item loop of the parser, entered on a nonempty array: one
value, then a comma and further items or the closing bracket. -/
def parseItems : Nat → List Char → Option (List PyVal × List Char)
  | 0, _ => none
  | fuel + 1, input =>
    match parseVal fuel input with
    | some (v, r) =>
      match skipWs r with
      | [] => none
      | d :: r2 =>
        if d = ',' then
          match parseItems fuel r2 with
          | some (vs, r3) => some (v :: vs, r3)
          | none => none
        else if d = ']' then some ([v], r2)
        else none
    | none => none
termination_by fuel input => fuel

/-- The member loop of the parser, entered on a nonempty object: one
quoted key, a colon, a value, then a comma and further members or the
closing brace. -/
def parseMembers : Nat → List Char → Option (List (String × PyVal) × List Char)
  | 0, _ => none
  | fuel + 1, input =>
    match skipWs input with
    | [] => none
    | q :: r =>
      if q = '"' then
        match parseStrBody (r.length + 1) r with
        | some (k, r1) =>
          match skipWs r1 with
          | [] => none
          | cl :: r2 =>
            if cl = ':' then
              match parseVal fuel r2 with
              | some (v, r3) =>
                match skipWs r3 with
                | [] => none
                | d :: r4 =>
                  if d = ',' then
                    match parseMembers fuel r4 with
                    | some (fs, r5) => some ((String.mk k, v) :: fs, r5)
                    | none => none
                  else if d = '\x7d' then some ([(String.mk k, v)], r4)
                  else none
              | none => none
            else none
        | none => none
      else none
termination_by fuel input => fuel
end

/-- Parse a complete JSON document: one value and then only trailing
whitespace. -/
def parseJson (s : String) : Option PyVal :=
  match parseVal (s.data.length + 1) s.data with
  | some (v, rest) => if skipWs rest = [] then some v else none
  | none => none

/-- Whether a character run starts with a decimal digit (what the
greedy number parser would consume from the following input). -/
def headDigit : List Char → Bool
  | [] => false
  | c :: _ => isDigitCh c

/-- A run of insignificant whitespace. -/
def wsOnly (l : List Char) : Prop :=
  ∀ c ∈ l, isWsChar c = true

/-- The parsed document carried by a file outcome, if any. -/
def filePayload : ParsedFile → Option PyVal
  | .ok d => some d
  | .parseError => none

/-- Whether a file outcome is a successful parse. -/
def isOkFile : ParsedFile → Bool
  | .ok _ => true
  | .parseError => false

end JsonToCsv

namespace JsonToCsv

/-- A produced row has one entry per requested column. -/
theorem rows_length (v : PyVal) :
    ∀ (cols : List String) (row : List String),
      json_to_csv_rows v cols = Except.ok row → row.length = cols.length := by
  intro cols
  induction cols with
  | nil =>
    intro row h
    cases h
    rfl
  | cons c cs ih =>
    intro row h
    cases hg : pyGet v c with
    | error e =>
      simp only [json_to_csv_rows, hg] at h
      exact Except.noConfusion h
    | ok w =>
      simp only [json_to_csv_rows, hg] at h
      cases hc : clean_multiline_field w with
      | error e =>
        simp only [hc] at h
        exact Except.noConfusion h
      | ok s =>
        simp only [hc] at h
        cases hr : json_to_csv_rows v cs with
        | error e =>
          simp only [hr] at h
          exact Except.noConfusion h
        | ok rest =>
          simp only [hr] at h
          cases h
          simp [ih rest hr]

/-- Each entry of a produced row is the normalization of the looked-up
field of the corresponding column. -/
theorem rows_entry (v : PyVal) :
    ∀ (cols : List String) (row : List String) (i : Nat),
      json_to_csv_rows v cols = Except.ok row → i < cols.length →
      ∃ w, pyGet v (cols.getD i "") = Except.ok w ∧
        clean_multiline_field w = Except.ok (row.getD i "null") := by
  intro cols
  induction cols with
  | nil =>
    intro row i h hi
    exact absurd hi (by simp)
  | cons c cs ih =>
    intro row i h hi
    cases hg : pyGet v c with
    | error e =>
      simp only [json_to_csv_rows, hg] at h
      exact Except.noConfusion h
    | ok w =>
      simp only [json_to_csv_rows, hg] at h
      cases hc : clean_multiline_field w with
      | error e =>
        simp only [hc] at h
        exact Except.noConfusion h
      | ok s =>
        simp only [hc] at h
        cases hr : json_to_csv_rows v cs with
        | error e =>
          simp only [hr] at h
          exact Except.noConfusion h
        | ok rest =>
          simp only [hr] at h
          cases h
          cases i with
          | zero => exact ⟨w, hg, by simpa using hc⟩
          | succ j =>
            have hj : j < cs.length := by simpa using hi
            simpa using ih rest j hr hj

/-- Every cell of a produced row came out of the field normalizer. -/
theorem rows_cells (v : PyVal) :
    ∀ (cols : List String) (row : List String) (cell : String),
      json_to_csv_rows v cols = Except.ok row → cell ∈ row →
      ∃ w, clean_multiline_field w = Except.ok cell := by
  intro cols
  induction cols with
  | nil =>
    intro row cell h hmem
    cases h
    exact absurd hmem (by simp)
  | cons c cs ih =>
    intro row cell h hmem
    cases hg : pyGet v c with
    | error e =>
      simp only [json_to_csv_rows, hg] at h
      exact Except.noConfusion h
    | ok w =>
      simp only [json_to_csv_rows, hg] at h
      cases hc : clean_multiline_field w with
      | error e =>
        simp only [hc] at h
        exact Except.noConfusion h
      | ok s =>
        simp only [hc] at h
        cases hr : json_to_csv_rows v cs with
        | error e =>
          simp only [hr] at h
          exact Except.noConfusion h
        | ok rest =>
          simp only [hr] at h
          cases h
          rcases List.mem_cons.mp hmem with hcell | hcell
          · exact ⟨w, by rw [hcell]; exact hc⟩
          · exact ih rest cell hr hcell

/-- Newline replacement leaves no newline behind. -/
theorem replaceNewline_no_newline (s : String) : '\n' ∉ (replaceNewline s).data := by
  intro hmem
  simp only [replaceNewline, List.mem_flatMap] at hmem
  rcases hmem with ⟨a, _, ha⟩
  by_cases h : a = '\n'
  · rw [if_pos h] at ha
    simp at ha
  · rw [if_neg h] at ha
    simp at ha
    exact h (ha ▸ rfl)

/-- The normalizer on a string value: the newline replacement of the
string (an empty string is falsy and maps to the empty string, which is
also its newline replacement). -/
theorem clean_str (s : String) :
    clean_multiline_field (PyVal.str s) = Except.ok (replaceNewline s) := by
  by_cases h : s = ""
  · subst h
    rfl
  · have : s.isEmpty = false := by
      cases he : s.isEmpty
      · rfl
      · exact absurd ((String.isEmpty_iff s).mp he) h
    simp [clean_multiline_field, cleanJoin, pyTruthy, this]

/-- Any string the normalizer returns contains no newline. -/
theorem clean_ok_no_newline (w : PyVal) (s : String)
    (h : clean_multiline_field w = Except.ok s) : '\n' ∉ s.data := by
  cases hj : cleanJoin w with
  | error e =>
    simp only [clean_multiline_field, hj] at h
    exact Except.noConfusion h
  | ok t =>
    simp only [clean_multiline_field, hj] at h
    by_cases ht : pyTruthy t = true
    · rw [if_pos ht] at h
      cases t with
      | str u =>
        cases h
        exact replaceNewline_no_newline u
      | int n => exact Except.noConfusion h
      | bool b => exact Except.noConfusion h
      | null => exact Except.noConfusion h
      | list xs => exact Except.noConfusion h
      | dict fs => exact Except.noConfusion h
    · rw [if_neg ht] at h
      cases h
      simp

/-- When the join step turns the value into a string, the normalizer
returns that string with newlines replaced (an empty string is falsy
and maps to the empty string, its own newline replacement). -/
theorem clean_of_join_str (v : PyVal) (j : String)
    (hj : cleanJoin v = Except.ok (PyVal.str j)) :
    clean_multiline_field v = Except.ok (replaceNewline j) := by
  simp only [clean_multiline_field, hj]
  by_cases h : j = ""
  · subst h
    rfl
  · have hne : j.isEmpty = false := by
      cases he : j.isEmpty
      · rfl
      · exact absurd ((String.isEmpty_iff j).mp he) h
    simp [pyTruthy, hne]

/-- Claim C1: the spec says the field normalizer maps every JSON field
value to some string and raises no exception.  The code contradicts
this: a truthy number and true have no `.replace` attribute and raise
AttributeError, and a sequence with a non-string element makes
`", ".join` raise TypeError. -/
theorem normalizer_raises_on_spec_inputs :
    clean_multiline_field (PyVal.int 1) = Except.error PyError.attributeError ∧
    clean_multiline_field (PyVal.bool true) = Except.error PyError.attributeError ∧
    clean_multiline_field (PyVal.list [PyVal.int 1]) = Except.error PyError.typeError :=
  ⟨rfl, rfl, rfl⟩

/-- Claim C2: on the spec's own example documents, the delimited-text
encoder does not return the three-line text the spec states: it raises
AttributeError while normalizing the numeric field value 1. -/
theorem csv_spec_example_raises :
    convert_multiple_json_to_csv
      [ParsedFile.ok (PyVal.dict [("a", PyVal.int 1), ("b", PyVal.str "x\ny")]),
       ParsedFile.ok (PyVal.dict [("a", PyVal.int 2), ("b", PyVal.str "z")])]
      ["a", "b"] = Except.error PyError.attributeError := rfl

/-- Claim C5: the spec says mapRow always returns a row of length
len(headers).  The code contradicts this: on a document with a truthy
numeric field it raises AttributeError and returns no row at all. -/
theorem row_mapper_raises_on_numeric_field :
    json_to_csv_rows (PyVal.dict [("a", PyVal.int 1)]) ["a"] =
      Except.error PyError.attributeError := rfl

/-- Claim C6: a header name absent from the document yields the empty
string at that row position (not an error and not the literal "null";
here even reading the row entry with default "null" yields ""). -/
theorem missing_field_normalizes_to_empty (fs : List (String × PyVal))
    (cols : List String) (row : List String) (i : Nat)
    (hi : i < cols.length)
    (habs : lookupField fs (cols.getD i "") = none)
    (h : json_to_csv_rows (PyVal.dict fs) cols = Except.ok row) :
    row.getD i "null" = "" := by
  obtain ⟨w, hw, hclean⟩ := rows_entry (PyVal.dict fs) cols row i h hi
  simp only [pyGet, habs] at hw
  cases hw
  have hempty : clean_multiline_field (PyVal.str "") = Except.ok "" := rfl
  rw [hempty] at hclean
  injection hclean with h2
  exact h2.symm

theorem missing_field_normalizes_to_empty_witness :
    ([""] : List String).getD 0 "null" = "" :=
  missing_field_normalizes_to_empty [("a", PyVal.str "v")] ["b"] [""] 0
    (by decide) rfl rfl

/-- Claim C7: a string field value is normalized to its newline
replacement (each newline becoming " | "), the replacement contains no
newline, and no cell of any produced data row contains a raw newline
(so no newline of a field value reaches the delimited-text output). -/
theorem newlines_replaced_in_cells :
    (∀ s : String,
      clean_multiline_field (PyVal.str s) = Except.ok (replaceNewline s)) ∧
    (∀ s : String, '\n' ∉ (replaceNewline s).data) ∧
    (∀ (v : PyVal) (cols : List String) (row : List String) (cell : String),
      json_to_csv_rows v cols = Except.ok row → cell ∈ row → '\n' ∉ cell.data) :=
  ⟨fun s => clean_of_join_str (PyVal.str s) s rfl,
   replaceNewline_no_newline,
   fun v cols row cell h hm => by
    obtain ⟨w, hw⟩ := rows_cells v cols row cell h hm
    exact clean_ok_no_newline w cell hw⟩

theorem newlines_replaced_in_cells_witness :
    '\n' ∉ ("x | y" : String).data :=
  newlines_replaced_in_cells.2.2 (PyVal.dict [("b", PyVal.str "x\ny")])
    ["b"] ["x | y"] "x | y" rfl (by simp)

/-- Claim C8 counterexample: the spec says a sequence-valued field
normalizes to its elements joined by ", ", but on the sequence
["x\ny"] the code returns "x | y", not the plain join "x\ny": the
newline replacement is applied after the join. -/
theorem seq_join_counterexample :
    clean_multiline_field (PyVal.list [PyVal.str "x\ny"]) = Except.ok "x | y" ∧
    (Except.ok "x | y" : Except PyError String) ≠
      Except.ok (String.intercalate ", " ["x\ny"]) := by
  constructor
  · rfl
  · decide

/-- Claim C8 as amended: a sequence of strings normalizes to its
elements joined by ", " with every newline of the joined string then
replaced by " | "; a sequence containing a non-string element raises
TypeError. -/
theorem seq_join_amended :
    (∀ ss : List String,
      clean_multiline_field (PyVal.list (ss.map PyVal.str)) =
        Except.ok (replaceNewline (String.intercalate ", " ss))) ∧
    clean_multiline_field (PyVal.list [PyVal.int 1]) =
      Except.error PyError.typeError := by
  constructor
  · intro ss
    have hstr : strList (ss.map PyVal.str) = Except.ok ss := by
      induction ss with
      | nil => rfl
      | cons a as ih => simp [strList, ih]
    exact clean_of_join_str _ _ (by simp [cleanJoin, joinPyStrs, hstr])
  · rfl

/-- Claim C3: the spreadsheet encoder relabels the inferred columns
with the custom headers exactly when the counts agree; otherwise it
reports the mismatch, keeps the original labels, and still exports the
table built from the documents' own keys. -/
theorem excel_header_cardinality (files : List ParsedFile)
    (headers : List String) (objs : List (List (String × PyVal)))
    (hobjs : allObjs (loadDocs files).1 = some objs) :
    ∃ r, convert_json_to_excel files headers = some r ∧
      (r.headerError = false ↔ headers.length = (inferCols objs).length) ∧
      r.cols = (if headers.length = (inferCols objs).length then headers
        else inferCols objs) ∧
      r.rows = objs.map fun fs => (inferCols objs).map fun c => lookupField fs c := by
  simp only [convert_json_to_excel, hobjs]
  by_cases h : headers.length = (inferCols objs).length
  · rw [if_pos h]
    exact ⟨_, rfl, by simp [h], by simp [h], rfl⟩
  · rw [if_neg h]
    exact ⟨_, rfl, by simp [h], by simp [h], rfl⟩

theorem excel_header_cardinality_witness :
    ∃ r, convert_json_to_excel
        [ParsedFile.ok (PyVal.dict [("a", PyVal.int 1), ("b", PyVal.str "z")])]
        ["x", "y", "w"] = some r ∧
      (r.headerError = false ↔ (["x", "y", "w"] : List String).length =
        (inferCols [[("a", PyVal.int 1), ("b", PyVal.str "z")]]).length) ∧
      r.cols = (if (["x", "y", "w"] : List String).length =
          (inferCols [[("a", PyVal.int 1), ("b", PyVal.str "z")]]).length
        then ["x", "y", "w"]
        else inferCols [[("a", PyVal.int 1), ("b", PyVal.str "z")]]) ∧
      r.rows = [[("a", PyVal.int 1), ("b", PyVal.str "z")]].map fun fs =>
        (inferCols [[("a", PyVal.int 1), ("b", PyVal.str "z")]]).map fun c =>
          lookupField fs c :=
  excel_header_cardinality _ _ _ rfl

/-- The loading loop keeps exactly the successfully parsed documents in
order and reports one error per failed file. -/
theorem loadDocs_eq_filterMap : ∀ files : List ParsedFile,
    (loadDocs files).1 = files.filterMap filePayload ∧
    (loadDocs files).2 = (files.filter fun f => !isOkFile f).length := by
  intro files
  induction files with
  | nil => exact ⟨rfl, rfl⟩
  | cons f fs ih =>
    cases f with
    | ok d =>
      refine ⟨?_, ?_⟩ <;>
        simp [loadDocs, filePayload, isOkFile, ih.1, ih.2]
    | parseError =>
      refine ⟨?_, ?_⟩ <;>
        simp [loadDocs, filePayload, isOkFile, ih.1, ih.2]

/-- Dropping the failed files changes nothing about what is loaded. -/
theorem loadDocs_filter_ok : ∀ files : List ParsedFile,
    loadDocs (files.filter isOkFile) = ((loadDocs files).1, 0) := by
  intro files
  induction files with
  | nil => rfl
  | cons f fs ih =>
    cases f with
    | ok d => simp [loadDocs, isOkFile, ih]
    | parseError => simp [loadDocs, isOkFile, ih]

/-- Claim C9: a file that fails to parse is excluded from the document
list and reported individually (one notice per failed file); each
encoder behaves exactly as if only the valid files had been uploaded;
and an empty document list yields the headers-only text, the empty
table, and the empty JSON array rather than an error. -/
theorem parse_failures_skipped (files : List ParsedFile)
    (headers : List String) :
    ((loadDocs files).1 = files.filterMap filePayload ∧
     (loadDocs files).2 = (files.filter fun f => !isOkFile f).length ∧
     convert_multiple_json_to_csv files headers =
       convert_multiple_json_to_csv (files.filter isOkFile) headers ∧
     convert_json_to_excel files headers =
       convert_json_to_excel (files.filter isOkFile) headers ∧
     convert_json_to_json files = convert_json_to_json (files.filter isOkFile)) ∧
    ((loadDocs files).1 = [] →
      convert_multiple_json_to_csv files headers = Except.ok (csvLine headers) ∧
      convert_json_to_excel files headers = some ⟨[], [], !headers.isEmpty⟩ ∧
      convert_json_to_json files = "[]") := by
  have hfm := loadDocs_eq_filterMap files
  have hfo := loadDocs_filter_ok files
  refine ⟨⟨hfm.1, hfm.2, ?_, ?_, ?_⟩, ?_⟩
  · simp [convert_multiple_json_to_csv, hfo]
  · simp [convert_json_to_excel, hfo]
  · simp [convert_json_to_json, hfo]
  · intro hempty
    refine ⟨?_, ?_, ?_⟩
    · simp [convert_multiple_json_to_csv, hempty, writeRows]
    · cases headers with
      | nil => simp [convert_json_to_excel, hempty, allObjs, inferCols]
      | cons a as => simp [convert_json_to_excel, hempty, allObjs, inferCols]
    · rw [convert_json_to_json, hempty]
      simp [jdump]

theorem parse_failures_skipped_witness :
    convert_multiple_json_to_csv [ParsedFile.parseError] ["a"] =
      Except.ok (csvLine ["a"]) ∧
    convert_json_to_excel [ParsedFile.parseError] ["a"] = some ⟨[], [], true⟩ ∧
    convert_json_to_json [ParsedFile.parseError] = "[]" := by
  have h := (parse_failures_skipped [ParsedFile.parseError] ["a"]).2 rfl
  simpa using h

/-- Every successful run of the data-row loop is a concatenation of
CRLF-terminated csv lines, one per document. -/
theorem writeRows_join (headers : List String) :
    ∀ (docs : List PyVal) (s : String),
      writeRows docs headers = Except.ok s →
      ∃ rs : List (List String),
        s = concatLines (rs.map csvLine) ∧ rs.length = docs.length := by
  intro docs
  induction docs with
  | nil =>
    intro s h
    cases h
    exact ⟨[], rfl, rfl⟩
  | cons d ds ih =>
    intro s h
    cases hr : json_to_csv_rows d headers with
    | error e =>
      simp only [writeRows, hr] at h
      exact Except.noConfusion h
    | ok row =>
      simp only [writeRows, hr] at h
      cases hw : writeRows ds headers with
      | error e =>
        simp only [hw] at h
        exact Except.noConfusion h
      | ok rest =>
        simp only [hw] at h
        cases h
        obtain ⟨rs, hrest, hlen⟩ := ih rest hw
        exact ⟨row :: rs, by simp [concatLines, hrest], by simp [hlen]⟩

/-- Claim C10: every text the delimited-text encoder returns is a
concatenation of lines each terminated by CRLF (the csv.writer default
lineterminator), the first being the header row; in particular the
output is not the rows joined by bare newlines, as the concrete example
shows. -/
theorem csv_rows_crlf_terminated :
    (∀ (files : List ParsedFile) (headers : List String) (out : String),
      convert_multiple_json_to_csv files headers = Except.ok out →
      ∃ lines : List String,
        out = concatLines (lines.map fun l => l ++ "\r\n") ∧
        lines.length = 1 + (loadDocs files).1.length ∧
        lines.headD "" = rowText headers) ∧
    (convert_multiple_json_to_csv
        [ParsedFile.ok (PyVal.dict [("a", PyVal.str "1"), ("b", PyVal.str "x\ny")]),
         ParsedFile.ok (PyVal.dict [("a", PyVal.str "2"), ("b", PyVal.str "z")])]
        ["a", "b"] = Except.ok "a,b\r\n1,x | y\r\n2,z\r\n" ∧
      ("a,b\r\n1,x | y\r\n2,z\r\n" : String) ≠ "a,b\n1,x | y\n2,z\n") := by
  refine ⟨?_, by decide, by decide⟩
  intro files headers out h
  cases hw : writeRows (loadDocs files).1 headers with
  | error e =>
    simp only [convert_multiple_json_to_csv, hw] at h
    exact Except.noConfusion h
  | ok s =>
    simp only [convert_multiple_json_to_csv, hw] at h
    cases h
    obtain ⟨rs, hs, hlen⟩ := writeRows_join headers _ s hw
    refine ⟨rowText headers :: rs.map rowText, ?_, by simp [hlen]; omega, by simp⟩
    simp only [List.map_cons, List.map_map, concatLines, hs]
    have : rs.map csvLine = (rs.map rowText).map fun l => l ++ "\r\n" := by
      simp [List.map_map, csvLine]
    rw [this, csvLine]
    simp [List.map_map]

theorem csv_rows_crlf_terminated_witness :
    ∃ lines : List String,
      ("a\r\n" : String) = concatLines (lines.map fun l => l ++ "\r\n") ∧
      lines.length = 1 + (loadDocs ([] : List ParsedFile)).1.length ∧
      lines.headD "" = rowText ["a"] :=
  csv_rows_crlf_terminated.1 [] ["a"] "a\r\n" (by decide)

theorem skipWs_ws_append : ∀ (ws l : List Char), wsOnly ws →
    skipWs (ws ++ l) = skipWs l := by
  intro ws
  induction ws with
  | nil => intro l _; rfl
  | cons c cs ih =>
    intro l hws
    have hc : isWsChar c = true := hws c (List.mem_cons_self c cs)
    have hcs : wsOnly cs := fun d hd => hws d (List.mem_cons_of_mem c hd)
    simp [skipWs, hc]
    exact ih l hcs

theorem skipWs_not_ws (c : Char) (l : List Char) (h : isWsChar c = false) :
    skipWs (c :: l) = c :: l := by
  simp [skipWs, h]

theorem indent_wsOnly (lvl : Nat) : wsOnly (indentChars lvl) := by
  intro c hc
  simp only [indentChars, List.mem_replicate] at hc
  rw [hc.2]
  rfl

theorem wsOnly_nil : wsOnly ([] : List Char) :=
  fun c hc => absurd hc (List.not_mem_nil c)

theorem wsOnly_nl_indent (lvl : Nat) : wsOnly ('\n' :: indentChars lvl) := by
  intro c hc
  rcases List.mem_cons.mp hc with h | h
  · rw [h]; rfl
  · exact indent_wsOnly lvl c h

theorem wsOnly_space : wsOnly [' '] := by
  intro c hc
  simp only [List.mem_singleton] at hc
  rw [hc]
  rfl

theorem digitChar_digit : ∀ d, d < 10 → isDigitCh (digitChar d) = true := by decide

theorem dchar_sub : ∀ d, d < 10 → (digitChar d).toNat - 48 = d := by decide

/-- A decimal digit character is none of the characters the value
parser dispatches on, is not whitespace, and closes no bracket. -/
theorem digit_not_special (c : Char) (h : isDigitCh c = true) :
    c ≠ '"' ∧ c ≠ '[' ∧ c ≠ '\x7b' ∧ c ≠ 't' ∧ c ≠ 'f' ∧ c ≠ 'n' ∧ c ≠ '-' ∧
      isWsChar c = false ∧ c ≠ ']' ∧ c ≠ '\x7d' := by
  refine ⟨?_, ?_, ?_, ?_, ?_, ?_, ?_, ?_, ?_, ?_⟩
  · rintro rfl; exact absurd h (by decide)
  · rintro rfl; exact absurd h (by decide)
  · rintro rfl; exact absurd h (by decide)
  · rintro rfl; exact absurd h (by decide)
  · rintro rfl; exact absurd h (by decide)
  · rintro rfl; exact absurd h (by decide)
  · rintro rfl; exact absurd h (by decide)
  · cases hw : isWsChar c
    · rfl
    · exfalso
      have hw2 := hw
      simp only [isWsChar, Bool.or_eq_true, decide_eq_true_eq] at hw2
      rcases hw2 with ((h1 | h1) | h1) | h1 <;>
        (subst h1; exact absurd h (by decide))
  · rintro rfl; exact absurd h (by decide)
  · rintro rfl; exact absurd h (by decide)

theorem natChars_digits (m : Nat) : ∀ c ∈ natChars m, isDigitCh c = true := by
  intro c hc
  by_cases hm : m = 0
  · subst hm
    rw [show natChars 0 = ['0'] from rfl] at hc
    simp only [List.mem_singleton] at hc
    rw [hc]
    rfl
  · simp only [natChars, if_neg hm, List.mem_reverse, List.mem_map] at hc
    obtain ⟨d, hd, rfl⟩ := hc
    exact digitChar_digit d (Nat.digits_lt_base (by norm_num) hd)

theorem natChars_ne_nil (m : Nat) : natChars m ≠ [] := by
  by_cases hm : m = 0
  · subst hm
    simp [natChars]
  · simp [natChars, hm, Nat.digits_ne_nil_iff_ne_zero]

theorem takeDigits_append : ∀ (ds rest : List Char),
    (∀ c ∈ ds, isDigitCh c = true) → headDigit rest = false →
    takeDigits (ds ++ rest) = (ds, rest) := by
  intro ds
  induction ds with
  | nil =>
    intro rest _ hrest
    cases rest with
    | nil => rfl
    | cons c r =>
      have hc : isDigitCh c = false := by simpa [headDigit] using hrest
      simp [takeDigits, hc]
  | cons c cs ih =>
    intro rest hds hrest
    have hc : isDigitCh c = true := hds c (by simp)
    simp [takeDigits, hc, ih rest (fun d hd => hds d (by simp [hd])) hrest]

theorem foldr_digitChar_ofDigits : ∀ L : List Nat, (∀ d ∈ L, d < 10) →
    List.foldr (fun c a => a * 10 + (c.toNat - 48)) 0 (L.map digitChar) =
      Nat.ofDigits 10 L := by
  intro L
  induction L with
  | nil => intro _; simp [Nat.ofDigits_nil]
  | cons d L ih =>
    intro h
    have hd10 : d < 10 := h d (by simp)
    simp only [List.map_cons, List.foldr_cons,
      ih (fun x hx => h x (by simp [hx])), dchar_sub d hd10, Nat.ofDigits_cons]
    ring

theorem digitsToNat_natChars (m : Nat) : digitsToNat (natChars m) = m := by
  by_cases hm : m = 0
  · subst hm
    rfl
  · unfold digitsToNat natChars
    rw [if_neg hm, List.foldl_reverse, List.foldr_map]
    have hlt : ∀ d ∈ Nat.digits 10 m, d < 10 := fun d hd =>
      Nat.digits_lt_base (by norm_num) hd
    have := foldr_digitChar_ofDigits (Nat.digits 10 m) hlt
    rw [List.foldr_map] at this
    rw [this, Nat.ofDigits_digits]

theorem hexVal_digitChar : ∀ d, d < 16 → hexVal (digitChar d) = some d := by decide

theorem hex4_uDigits (n : Nat) (l : List Char) (hn : n < 65536) :
    hex4 (uDigits n ++ l) = some (n, l) := by
  have h1 := hexVal_digitChar (n / 4096 % 16) (Nat.mod_lt _ (by norm_num))
  have h2 := hexVal_digitChar (n / 256 % 16) (Nat.mod_lt _ (by norm_num))
  have h3 := hexVal_digitChar (n / 16 % 16) (Nat.mod_lt _ (by norm_num))
  have h4 := hexVal_digitChar (n % 16) (Nat.mod_lt _ (by norm_num))
  simp only [uDigits, List.cons_append, List.nil_append, hex4, h1, h2, h3, h4,
    Option.bind_eq_bind, Option.some_bind]
  have h5 : n / 4096 % 16 * 4096 + n / 256 % 16 * 256 + n / 16 % 16 * 16 + n % 16 = n := by
    omega
  rw [h5]
  rfl

/-- Decoding a \uXXXX escape of a code unit outside the surrogate
range. -/
theorem unescape_u_digits (n : Nat) (l : List Char) (hlt : n < 65536)
    (hns : ¬(55296 ≤ n ∧ n < 56320)) :
    unescape ('u' :: (uDigits n ++ l)) = some (Char.ofNat n, l) := by
  simp [unescape, hex4_uDigits n l hlt, hns]

/-- Decoding a surrogate-pair escape of a code point beyond 0xFFFF. -/
theorem unescape_u_pair (t : Nat) (l : List Char) (h1 : 65536 ≤ t)
    (h2 : t < 1114112) :
    unescape ('u' :: (uDigits (55296 + (t - 65536) / 1024) ++
      ('\\' :: 'u' :: (uDigits (56320 + (t - 65536) % 1024) ++ l)))) =
      some (Char.ofNat t, l) := by
  have hhi : 55296 + (t - 65536) / 1024 < 65536 := by omega
  have hlo : 56320 + (t - 65536) % 1024 < 65536 := by omega
  have hc1 : 55296 ≤ 55296 + (t - 65536) / 1024 ∧
      55296 + (t - 65536) / 1024 < 56320 := by omega
  have hc2 : 56320 ≤ 56320 + (t - 65536) % 1024 ∧
      56320 + (t - 65536) % 1024 < 57344 := by omega
  have harith : 65536 + ((t - 65536) / 1024 * 1024 + (t - 65536) % 1024) = t := by
    omega
  simp [unescape, hex4_uDigits _ _ hhi, hex4_uDigits _ _ hlo, hc1, hc2, harith]

set_option maxHeartbeats 1000000 in
theorem escapeChar_len (c : Char) : 1 ≤ (escapeChar c).length := by
  unfold escapeChar
  split_ifs <;> simp [uEscape, uDigits]

theorem flatMap_escape_len : ∀ cs : List Char,
    cs.length ≤ (cs.flatMap escapeChar).length := by
  intro cs
  induction cs with
  | nil => simp
  | cons c cs ih =>
    simp only [List.flatMap_cons, List.length_append, List.length_cons]
    have := escapeChar_len c
    omega

/-- One step of string-body parsing over a backslash escape. -/
theorem escStep (c : Char) (l : List Char) (fuel : Nat) (e : List Char)
    (he : escapeChar c = '\\' :: e) (hu : unescape (e ++ l) = some (c, l)) :
    parseStrBody (fuel + 1) (escapeChar c ++ l) =
      (parseStrBody fuel l).map fun p => (c :: p.1, p.2) := by
  rw [he, List.cons_append]
  simp only [parseStrBody]
  rw [hu]
  cases hp : parseStrBody fuel l with
  | none => simp [hp]
  | some p =>
    obtain ⟨s, r2⟩ := p
    simp [hp]

/-- One step of string-body parsing over a literally emitted
character. -/
theorem litStep (c : Char) (l : List Char) (fuel : Nat)
    (he : escapeChar c = [c]) (hq : c ≠ '"') (hb : c ≠ '\\') :
    parseStrBody (fuel + 1) (escapeChar c ++ l) =
      (parseStrBody fuel l).map fun p => (c :: p.1, p.2) := by
  rw [he, List.singleton_append]
  simp only [parseStrBody]
  cases hp : parseStrBody fuel l with
  | none => simp [hp, hq, hb]
  | some p =>
    obtain ⟨s, r2⟩ := p
    simp [hp, hq, hb]

/-- Unicode scalar values avoid the surrogate range. -/
theorem charValid (c : Char) :
    c.toNat < 55296 ∨ (57343 < c.toNat ∧ c.toNat < 1114112) := c.valid

/-- One step of string-body parsing consumes exactly one escaped
character, whatever its class. -/
theorem parseStrBody_escapeChar (c : Char) (l : List Char) (fuel : Nat) :
    parseStrBody (fuel + 1) (escapeChar c ++ l) =
      (parseStrBody fuel l).map fun p => (c :: p.1, p.2) := by
  by_cases hq : c = '"'
  · subst hq
    exact escStep _ _ _ _ rfl (by simp [unescape])
  by_cases hb : c = '\\'
  · subst hb
    exact escStep _ _ _ _ rfl (by simp [unescape])
  by_cases hn : c = '\n'
  · subst hn
    exact escStep _ _ _ _ rfl (by simp [unescape])
  by_cases hr : c = '\r'
  · subst hr
    exact escStep _ _ _ _ rfl (by simp [unescape])
  by_cases ht : c = '\t'
  · subst ht
    exact escStep _ _ _ _ rfl (by simp [unescape])
  by_cases h8 : c.toNat = 8
  · have hc8 : Char.ofNat 8 = c := by rw [← h8, Char.ofNat_toNat]
    refine escStep _ _ _ ['b'] ?_ ?_
    · simp [escapeChar, hq, hb, hn, hr, ht, h8]
    · simp [unescape]
      exact hc8
  by_cases h12 : c.toNat = 12
  · have hc12 : Char.ofNat 12 = c := by rw [← h12, Char.ofNat_toNat]
    refine escStep _ _ _ ['f'] ?_ ?_
    · simp [escapeChar, hq, hb, hn, hr, ht, h8, h12]
    · simp [unescape]
      exact hc12
  by_cases h32 : c.toNat < 32
  · refine escStep _ _ _ ('u' :: uDigits c.toNat) ?_ ?_
    · simp [escapeChar, hq, hb, hn, hr, ht, h8, h12, h32, uEscape]
    · rw [List.cons_append]
      have := unescape_u_digits c.toNat l (by omega) (by omega)
      rwa [Char.ofNat_toNat] at this
  by_cases h127 : c.toNat < 127
  · refine litStep _ _ _ ?_ hq hb
    simp [escapeChar, hq, hb, hn, hr, ht, h8, h12, h32, h127]
  by_cases hbmp : c.toNat < 65536
  · refine escStep _ _ _ ('u' :: uDigits c.toNat) ?_ ?_
    · simp [escapeChar, hq, hb, hn, hr, ht, h8, h12, h32, h127, hbmp, uEscape]
    · rw [List.cons_append]
      have hns : ¬(55296 ≤ c.toNat ∧ c.toNat < 56320) := by
        rcases charValid c with h | h <;> omega
      have := unescape_u_digits c.toNat l hbmp hns
      rwa [Char.ofNat_toNat] at this
  · have hrange : 65536 ≤ c.toNat ∧ c.toNat < 1114112 := by
      rcases charValid c with h | h <;> omega
    refine escStep _ _ _
      ('u' :: (uDigits (55296 + (c.toNat - 65536) / 1024) ++
        ('\\' :: 'u' :: uDigits (56320 + (c.toNat - 65536) % 1024)))) ?_ ?_
    · simp [escapeChar, hq, hb, hn, hr, ht, h8, h12, h32, h127, hbmp, uEscape]
    · rw [List.cons_append, List.append_assoc]
      simp only [List.cons_append]
      have := unescape_u_pair c.toNat l hrange.1 hrange.2
      rwa [Char.ofNat_toNat] at this

/-- Parsing the escaped form of a string body recovers it exactly. -/
theorem parseStrBody_escaped : ∀ (cs rest : List Char) (fuel : Nat),
    cs.length < fuel →
    parseStrBody fuel (cs.flatMap escapeChar ++ '"' :: rest) = some (cs, rest) := by
  intro cs
  induction cs with
  | nil =>
    intro rest fuel hf
    cases fuel with
    | zero => omega
    | succ f => simp [parseStrBody]
  | cons c cs ih =>
    intro rest fuel hf
    cases fuel with
    | zero => omega
    | succ f =>
      rw [List.flatMap_cons, List.append_assoc, parseStrBody_escapeChar c _ f,
        ih rest f (by simpa using hf)]
      rfl

/-- The dumped form of any value begins with a character that is not
whitespace and closes no container. -/
theorem jdump_head (lvl : Nat) (v : PyVal) :
    ∃ c t, jdump lvl v = c :: t ∧ isWsChar c = false ∧ c ≠ ']' ∧ c ≠ '\x7d' := by
  cases v with
  | str s =>
    exact ⟨'"', s.data.flatMap escapeChar ++ ['"'], by simp [jdump, strChars],
      by decide, by decide, by decide⟩
  | int n =>
    by_cases hn : n < 0
    · exact ⟨'-', natChars n.natAbs, by simp [jdump, intChars, hn],
        by decide, by decide, by decide⟩
    · cases hnc : natChars n.toNat with
      | nil => exact absurd hnc (natChars_ne_nil n.toNat)
      | cons c t =>
        have hc : isDigitCh c = true :=
          natChars_digits n.toNat c (by rw [hnc]; exact List.mem_cons_self c t)
        obtain ⟨_, _, _, _, _, _, _, hws, hbr, hbc⟩ := digit_not_special c hc
        exact ⟨c, t, by simp [jdump, intChars, hn, hnc], hws, hbr, hbc⟩
  | bool b =>
    cases b with
    | true =>
      exact ⟨'t', ['r', 'u', 'e'], by simp [jdump], by decide, by decide, by decide⟩
    | false =>
      exact ⟨'f', ['a', 'l', 's', 'e'], by simp [jdump],
        by decide, by decide, by decide⟩
  | null =>
    exact ⟨'n', ['u', 'l', 'l'], by simp [jdump], by decide, by decide, by decide⟩
  | list xs =>
    cases xs with
    | nil => exact ⟨'[', [']'], by simp [jdump], by decide, by decide, by decide⟩
    | cons v vs =>
      exact ⟨'[', '\n' :: (indentChars (lvl + 1) ++
          (jdumpItems lvl v vs ++ '\n' :: (indentChars lvl ++ [']']))),
        by simp [jdump], by decide, by decide, by decide⟩
  | dict fs =>
    cases fs with
    | nil =>
      exact ⟨'\x7b', ['\x7d'], by simp [jdump], by decide, by decide, by decide⟩
    | cons f fs =>
      exact ⟨'\x7b', '\n' :: (indentChars (lvl + 1) ++
          (jdumpMembers lvl f fs ++ '\n' :: (indentChars lvl ++ ['\x7d']))),
        by simp [jdump], by decide, by decide, by decide⟩

theorem skipWs_to_head (ws : List Char) (hws : wsOnly ws) (c : Char)
    (l : List Char) (hc : isWsChar c = false) :
    skipWs (ws ++ c :: l) = c :: l := by
  rw [skipWs_ws_append ws _ hws, skipWs_not_ws c _ hc]

theorem skipWs_nl_indent (lvl : Nat) (c : Char) (l : List Char)
    (hc : isWsChar c = false) :
    skipWs ('\n' :: (indentChars lvl ++ c :: l)) = c :: l := by
  have h := skipWs_to_head ('\n' :: indentChars lvl) (wsOnly_nl_indent lvl) c l hc
  simpa using h

/-- The items of a nonempty dumped array begin with the first value's
head character. -/
theorem jdumpItems_head (lvl : Nat) (v : PyVal) (vs : List PyVal) :
    ∃ c t, jdumpItems lvl v vs = c :: t ∧ isWsChar c = false ∧
      c ≠ ']' ∧ c ≠ '\x7d' := by
  obtain ⟨c, t, hd, h1, h2, h3⟩ := jdump_head (lvl + 1) v
  cases vs with
  | nil => exact ⟨c, t, by simp [jdumpItems, hd], h1, h2, h3⟩
  | cons w ws =>
    exact ⟨c, t ++ ',' :: '\n' :: (indentChars (lvl + 1) ++ jdumpItems lvl w ws),
      by simp [jdumpItems, hd], h1, h2, h3⟩

/-- The members of a nonempty dumped object begin with the quote of the
first key. -/
theorem jdumpMembers_head (lvl : Nat) (f : String × PyVal)
    (fs : List (String × PyVal)) :
    ∃ t, jdumpMembers lvl f fs = '"' :: t := by
  obtain ⟨k, v⟩ := f
  cases fs with
  | nil =>
    exact ⟨(k.data.flatMap escapeChar ++ ['"']) ++
      ':' :: ' ' :: jdump (lvl + 1) v, by simp [jdumpMembers, strChars]⟩
  | cons g gs =>
    exact ⟨(k.data.flatMap escapeChar ++ ['"']) ++
      ':' :: ' ' :: (jdump (lvl + 1) v ++
        ',' :: '\n' :: (indentChars (lvl + 1) ++ jdumpMembers lvl g gs)),
      by simp [jdumpMembers, strChars]⟩

theorem vsize_pos : ∀ v : PyVal, 1 ≤ vsize v := by
  intro v
  cases v with
  | str s => simp [vsize]
  | int n => simp [vsize]
  | bool b => simp [vsize]
  | null => simp [vsize]
  | list xs =>
    cases xs with
    | nil => simp [vsize]
    | cons v vs => simp [vsize]
  | dict fs =>
    cases fs with
    | nil => simp [vsize]
    | cons f fs => simp [vsize]

theorem lsize_pos (v : PyVal) (vs : List PyVal) : 1 ≤ lsize v vs := by
  cases vs with
  | nil => simp [lsize]
  | cons w ws =>
    simp only [lsize]
    omega

theorem msize_pos (f : String × PyVal) (fs : List (String × PyVal)) :
    1 ≤ msize f fs := by
  obtain ⟨k, v⟩ := f
  cases fs with
  | nil => simp [msize]
  | cons g gs =>
    simp only [msize]
    omega

/-- The string parser called with the fuel the value parser gives it
(one more than the remaining input length) recovers the escaped body. -/
theorem parseStrBody_escaped_len (cs X : List Char) :
    parseStrBody ((cs.flatMap escapeChar ++ '"' :: X).length + 1)
      (cs.flatMap escapeChar ++ '"' :: X) = some (cs, X) := by
  apply parseStrBody_escaped
  have := flatMap_escape_len cs
  simp only [List.length_append, List.length_cons]
  omega

theorem skipWs_colon (l : List Char) : skipWs (':' :: l) = ':' :: l :=
  skipWs_not_ws _ _ (by decide)

theorem skipWs_comma (l : List Char) : skipWs (',' :: l) = ',' :: l :=
  skipWs_not_ws _ _ (by decide)

theorem skipWs_nl_indent_rbrack (lvl : Nat) (l : List Char) :
    skipWs ('\n' :: (indentChars lvl ++ ']' :: l)) = ']' :: l :=
  skipWs_nl_indent lvl ']' l (by decide)

theorem skipWs_nl_indent_rbrace (lvl : Nat) (l : List Char) :
    skipWs ('\n' :: (indentChars lvl ++ '\x7d' :: l)) = '\x7d' :: l :=
  skipWs_nl_indent lvl '\x7d' l (by decide)

/-- Round trip of the value parser over a dumped string. -/
theorem rt_val_str (fuel lvl : Nat) (s : String) (ws rest : List Char)
    (hws : wsOnly ws) :
    parseVal (fuel + 1) (ws ++ (jdump lvl (PyVal.str s) ++ rest)) =
      some (PyVal.str s, rest) := by
  have hd : jdump lvl (PyVal.str s) ++ rest =
      '"' :: (s.data.flatMap escapeChar ++ '"' :: rest) := by
    simp [jdump, strChars]
  rw [hd]
  simp only [parseVal]
  rw [skipWs_to_head ws hws '"' _ (by decide)]
  have hmk : String.mk s.data = s := rfl
  simp only [parseStrBody_escaped_len, hmk, if_true, if_false]

/-- Round trip of the value parser over a dumped integer. -/
theorem rt_val_int (fuel lvl : Nat) (n : Int) (ws rest : List Char)
    (hws : wsOnly ws) (hrest : headDigit rest = false) :
    parseVal (fuel + 1) (ws ++ (jdump lvl (PyVal.int n) ++ rest)) =
      some (PyVal.int n, rest) := by
  by_cases hn : n < 0
  · have hd : jdump lvl (PyVal.int n) ++ rest =
        '-' :: (natChars n.natAbs ++ rest) := by
      simp [jdump, intChars, hn]
    rw [hd]
    simp only [parseVal]
    rw [skipWs_to_head ws hws '-' _ (by decide)]
    have htd := takeDigits_append (natChars n.natAbs) rest
      (natChars_digits _) hrest
    cases hnc : natChars n.natAbs with
    | nil => exact absurd hnc (natChars_ne_nil _)
    | cons c t =>
      rw [hnc] at htd
      have hval : digitsToNat (c :: t) = n.natAbs := by
        rw [← hnc, digitsToNat_natChars]
      have hint : -((n.natAbs : Nat) : Int) = n := by omega
      simp only [Char.reduceEq, hnc, htd, hval, hint, if_true, if_false]
  · cases hnc : natChars n.toNat with
    | nil => exact absurd hnc (natChars_ne_nil _)
    | cons c t =>
      have hds : ∀ x ∈ natChars n.toNat, isDigitCh x = true := natChars_digits _
      rw [hnc] at hds
      have hc : isDigitCh c = true := hds c (by simp)
      have ht : ∀ x ∈ t, isDigitCh x = true := fun x hx => hds x (by simp [hx])
      obtain ⟨f1, f2, f3, f4, f5, f6, f7, f8, _, _⟩ := digit_not_special c hc
      have hd : jdump lvl (PyVal.int n) ++ rest = c :: (t ++ rest) := by
        simp [jdump, intChars, hn, hnc]
      rw [hd]
      simp only [parseVal]
      rw [skipWs_to_head ws hws c _ f8]
      have htd := takeDigits_append t rest ht hrest
      have hval : digitsToNat (c :: t) = n.toNat := by
        rw [← hnc, digitsToNat_natChars]
      have hint : ((n.toNat : Nat) : Int) = n := by omega
      simp only [Char.reduceEq, f1, f2, f3, f4, f5, f6, f7, hc, htd, hval, hint,
        if_true, if_false]

/-- Round trip of the value parser over dumped booleans and null. -/
theorem rt_val_bool (fuel lvl : Nat) (b : Bool) (ws rest : List Char)
    (hws : wsOnly ws) :
    parseVal (fuel + 1) (ws ++ (jdump lvl (PyVal.bool b) ++ rest)) =
      some (PyVal.bool b, rest) := by
  cases b with
  | true =>
    have hd : jdump lvl (PyVal.bool true) ++ rest =
        't' :: ('r' :: 'u' :: 'e' :: rest) := by simp [jdump]
    rw [hd]
    simp only [parseVal]
    rw [skipWs_to_head ws hws 't' _ (by decide)]
    simp only [Char.reduceEq, if_true, if_false, and_true, true_and, and_self]
  | false =>
    have hd : jdump lvl (PyVal.bool false) ++ rest =
        'f' :: ('a' :: 'l' :: 's' :: 'e' :: rest) := by simp [jdump]
    rw [hd]
    simp only [parseVal]
    rw [skipWs_to_head ws hws 'f' _ (by decide)]
    simp only [Char.reduceEq, if_true, if_false, and_true, true_and, and_self]

theorem rt_val_null (fuel lvl : Nat) (ws rest : List Char) (hws : wsOnly ws) :
    parseVal (fuel + 1) (ws ++ (jdump lvl PyVal.null ++ rest)) =
      some (PyVal.null, rest) := by
  have hd : jdump lvl PyVal.null ++ rest = 'n' :: ('u' :: 'l' :: 'l' :: rest) := by
    simp [jdump]
  rw [hd]
  simp only [parseVal]
  rw [skipWs_to_head ws hws 'n' _ (by decide)]
  simp only [Char.reduceEq, if_true, if_false, and_true, true_and, and_self]

theorem rt_val_list_nil (fuel lvl : Nat) (ws rest : List Char) (hws : wsOnly ws) :
    parseVal (fuel + 1) (ws ++ (jdump lvl (PyVal.list []) ++ rest)) =
      some (PyVal.list [], rest) := by
  have hd : jdump lvl (PyVal.list []) ++ rest = '[' :: (']' :: rest) := by
    simp [jdump]
  rw [hd]
  simp only [parseVal]
  rw [skipWs_to_head ws hws '[' _ (by decide)]
  have hsk : skipWs (']' :: rest) = ']' :: rest := skipWs_not_ws _ _ (by decide)
  simp only [Char.reduceEq, hsk, if_true, if_false]

theorem rt_val_dict_nil (fuel lvl : Nat) (ws rest : List Char) (hws : wsOnly ws) :
    parseVal (fuel + 1) (ws ++ (jdump lvl (PyVal.dict []) ++ rest)) =
      some (PyVal.dict [], rest) := by
  have hd : jdump lvl (PyVal.dict []) ++ rest = '\x7b' :: ('\x7d' :: rest) := by
    simp [jdump]
  rw [hd]
  simp only [parseVal]
  rw [skipWs_to_head ws hws '\x7b' _ (by decide)]
  have hsk : skipWs ('\x7d' :: rest) = '\x7d' :: rest := skipWs_not_ws _ _ (by decide)
  simp only [Char.reduceEq, hsk, if_true, if_false]

/-- Round trip of the value parser over a dumped nonempty array, given
the item loop handles the items. -/
theorem rt_val_list_cons (fuel lvl : Nat) (v : PyVal) (vs : List PyVal)
    (ws rest : List Char) (hws : wsOnly ws)
    (hv : vsize (PyVal.list (v :: vs)) ≤ fuel + 1)
    (ihItems : ∀ lvl (v : PyVal) (vs : List PyVal) (ws rest : List Char),
      wsOnly ws → lsize v vs ≤ fuel →
      parseItems fuel (ws ++ (jdumpItems lvl v vs ++
        '\n' :: (indentChars lvl ++ ']' :: rest))) = some (v :: vs, rest)) :
    parseVal (fuel + 1) (ws ++ (jdump lvl (PyVal.list (v :: vs)) ++ rest)) =
      some (PyVal.list (v :: vs), rest) := by
  obtain ⟨c0, t0, hic, hws0, hbr0, _⟩ := jdumpItems_head lvl v vs
  have hd : jdump lvl (PyVal.list (v :: vs)) ++ rest =
      '[' :: ('\n' :: (indentChars (lvl + 1) ++
        (c0 :: (t0 ++ ('\n' :: (indentChars lvl ++ (']' :: rest))))))) := by
    simp [jdump, hic]
  rw [hd]
  simp only [parseVal]
  rw [skipWs_to_head ws hws '[' _ (by decide)]
  have hsk2 : skipWs ('\n' :: (indentChars (lvl + 1) ++
      (c0 :: (t0 ++ ('\n' :: (indentChars lvl ++ (']' :: rest))))))) =
      c0 :: (t0 ++ ('\n' :: (indentChars lvl ++ (']' :: rest)))) :=
    skipWs_nl_indent _ _ _ hws0
  have hrec := ihItems lvl v vs [] rest wsOnly_nil (by
    have hveq : vsize (PyVal.list (v :: vs)) = 1 + lsize v vs := by simp [vsize]
    omega)
  rw [List.nil_append, hic] at hrec
  simp only [List.cons_append] at hrec
  simp only [Char.reduceEq, if_true, if_false, hsk2, hbr0, hrec]

/-- Round trip of the value parser over a dumped nonempty object, given
the member loop handles the members. -/
theorem rt_val_dict_cons (fuel lvl : Nat) (f : String × PyVal)
    (fs : List (String × PyVal)) (ws rest : List Char) (hws : wsOnly ws)
    (hv : vsize (PyVal.dict (f :: fs)) ≤ fuel + 1)
    (ihMembers : ∀ lvl (f : String × PyVal) (fs : List (String × PyVal))
      (ws rest : List Char), wsOnly ws → msize f fs ≤ fuel →
      parseMembers fuel (ws ++ (jdumpMembers lvl f fs ++
        '\n' :: (indentChars lvl ++ '\x7d' :: rest))) = some (f :: fs, rest)) :
    parseVal (fuel + 1) (ws ++ (jdump lvl (PyVal.dict (f :: fs)) ++ rest)) =
      some (PyVal.dict (f :: fs), rest) := by
  obtain ⟨t0, hmh⟩ := jdumpMembers_head lvl f fs
  have hd : jdump lvl (PyVal.dict (f :: fs)) ++ rest =
      '\x7b' :: ('\n' :: (indentChars (lvl + 1) ++
        ('"' :: (t0 ++ ('\n' :: (indentChars lvl ++ ('\x7d' :: rest))))))) := by
    simp [jdump, hmh]
  rw [hd]
  simp only [parseVal]
  rw [skipWs_to_head ws hws '\x7b' _ (by decide)]
  have hsk2 : skipWs ('\n' :: (indentChars (lvl + 1) ++
      ('"' :: (t0 ++ ('\n' :: (indentChars lvl ++ ('\x7d' :: rest))))))) =
      '"' :: (t0 ++ ('\n' :: (indentChars lvl ++ ('\x7d' :: rest)))) :=
    skipWs_nl_indent _ _ _ (by decide)
  have hrec := ihMembers lvl f fs [] rest wsOnly_nil (by
    have hveq : vsize (PyVal.dict (f :: fs)) = 1 + msize f fs := by simp [vsize]
    omega)
  rw [List.nil_append, hmh] at hrec
  simp only [List.cons_append] at hrec
  simp only [Char.reduceEq, if_true, if_false, hsk2, hrec]

/-- One fuel step of the value-parser round trip. -/
theorem rt_val_step (fuel : Nat)
    (ihItems : ∀ lvl (v : PyVal) (vs : List PyVal) (ws rest : List Char),
      wsOnly ws → lsize v vs ≤ fuel →
      parseItems fuel (ws ++ (jdumpItems lvl v vs ++
        '\n' :: (indentChars lvl ++ ']' :: rest))) = some (v :: vs, rest))
    (ihMembers : ∀ lvl (f : String × PyVal) (fs : List (String × PyVal))
      (ws rest : List Char), wsOnly ws → msize f fs ≤ fuel →
      parseMembers fuel (ws ++ (jdumpMembers lvl f fs ++
        '\n' :: (indentChars lvl ++ '\x7d' :: rest))) = some (f :: fs, rest)) :
    ∀ lvl (v : PyVal) (ws rest : List Char), wsOnly ws → vsize v ≤ fuel + 1 →
      headDigit rest = false →
      parseVal (fuel + 1) (ws ++ (jdump lvl v ++ rest)) = some (v, rest) := by
  intro lvl v ws rest hws hv hrest
  cases v with
  | str s => exact rt_val_str fuel lvl s ws rest hws
  | int n => exact rt_val_int fuel lvl n ws rest hws hrest
  | bool b => exact rt_val_bool fuel lvl b ws rest hws
  | null => exact rt_val_null fuel lvl ws rest hws
  | list xs =>
    cases xs with
    | nil => exact rt_val_list_nil fuel lvl ws rest hws
    | cons v1 vs => exact rt_val_list_cons fuel lvl v1 vs ws rest hws hv ihItems
  | dict fs =>
    cases fs with
    | nil => exact rt_val_dict_nil fuel lvl ws rest hws
    | cons f1 fs1 => exact rt_val_dict_cons fuel lvl f1 fs1 ws rest hws hv ihMembers

/-- One fuel step of the item-loop round trip. -/
theorem rt_items_step (fuel : Nat)
    (ihVal : ∀ lvl (v : PyVal) (ws rest : List Char), wsOnly ws →
      vsize v ≤ fuel → headDigit rest = false →
      parseVal fuel (ws ++ (jdump lvl v ++ rest)) = some (v, rest))
    (ihItems : ∀ lvl (v : PyVal) (vs : List PyVal) (ws rest : List Char),
      wsOnly ws → lsize v vs ≤ fuel →
      parseItems fuel (ws ++ (jdumpItems lvl v vs ++
        '\n' :: (indentChars lvl ++ ']' :: rest))) = some (v :: vs, rest)) :
    ∀ lvl (v : PyVal) (vs : List PyVal) (ws rest : List Char), wsOnly ws →
      lsize v vs ≤ fuel + 1 →
      parseItems (fuel + 1) (ws ++ (jdumpItems lvl v vs ++
        '\n' :: (indentChars lvl ++ ']' :: rest))) = some (v :: vs, rest) := by
  intro lvl v vs ws rest hws hv
  cases vs with
  | nil =>
    have hitems : jdumpItems lvl v [] = jdump (lvl + 1) v := by simp [jdumpItems]
    rw [hitems]
    simp only [parseItems]
    rw [ihVal (lvl + 1) v ws ('\n' :: (indentChars lvl ++ ']' :: rest)) hws
      (by simp [lsize] at hv; omega) rfl]
    simp only [skipWs_nl_indent_rbrack, Char.reduceEq, if_true, if_false]
  | cons w ws2 =>
    have hitems : jdumpItems lvl v (w :: ws2) ++
        '\n' :: (indentChars lvl ++ ']' :: rest) =
        jdump (lvl + 1) v ++ (',' :: ('\n' :: (indentChars (lvl + 1) ++
          (jdumpItems lvl w ws2 ++ '\n' :: (indentChars lvl ++ ']' :: rest))))) := by
      simp [jdumpItems]
    rw [hitems]
    simp only [parseItems]
    rw [ihVal (lvl + 1) v ws
      (',' :: ('\n' :: (indentChars (lvl + 1) ++ (jdumpItems lvl w ws2 ++
        '\n' :: (indentChars lvl ++ ']' :: rest))))) hws
      (by simp [lsize] at hv; omega) rfl]
    have hrec := ihItems lvl w ws2 ('\n' :: indentChars (lvl + 1)) rest
      (wsOnly_nl_indent _) (by simp [lsize] at hv; omega)
    simp only [List.cons_append] at hrec
    simp only [skipWs_comma, Char.reduceEq, if_true, if_false, hrec]

/-- One fuel step of the member-loop round trip. -/
theorem rt_members_step (fuel : Nat)
    (ihVal : ∀ lvl (v : PyVal) (ws rest : List Char), wsOnly ws →
      vsize v ≤ fuel → headDigit rest = false →
      parseVal fuel (ws ++ (jdump lvl v ++ rest)) = some (v, rest))
    (ihMembers : ∀ lvl (f : String × PyVal) (fs : List (String × PyVal))
      (ws rest : List Char), wsOnly ws → msize f fs ≤ fuel →
      parseMembers fuel (ws ++ (jdumpMembers lvl f fs ++
        '\n' :: (indentChars lvl ++ '\x7d' :: rest))) = some (f :: fs, rest)) :
    ∀ lvl (f : String × PyVal) (fs : List (String × PyVal)) (ws rest : List Char),
      wsOnly ws → msize f fs ≤ fuel + 1 →
      parseMembers (fuel + 1) (ws ++ (jdumpMembers lvl f fs ++
        '\n' :: (indentChars lvl ++ '\x7d' :: rest))) = some (f :: fs, rest) := by
  intro lvl f fs ws rest hws hv
  obtain ⟨k, v⟩ := f
  cases fs with
  | nil =>
    have hm : jdumpMembers lvl (k, v) [] ++
        '\n' :: (indentChars lvl ++ '\x7d' :: rest) =
        '"' :: (k.data.flatMap escapeChar ++ '"' ::
          (':' :: (' ' :: (jdump (lvl + 1) v ++
            ('\n' :: (indentChars lvl ++ '\x7d' :: rest)))))) := by
      simp [jdumpMembers, strChars]
    rw [hm]
    simp only [parseMembers]
    rw [skipWs_to_head ws hws '"' _ (by decide)]
    have hval := ihVal (lvl + 1) v [' ']
      ('\n' :: (indentChars lvl ++ '\x7d' :: rest)) wsOnly_space
      (by simp [msize] at hv; omega) rfl
    simp only [List.cons_append, List.nil_append] at hval
    have hmk : String.mk k.data = k := rfl
    simp only [Char.reduceEq, if_true, if_false, parseStrBody_escaped_len,
      skipWs_colon, hval, skipWs_nl_indent_rbrace, hmk]
  | cons g gs =>
    have hm : jdumpMembers lvl (k, v) (g :: gs) ++
        '\n' :: (indentChars lvl ++ '\x7d' :: rest) =
        '"' :: (k.data.flatMap escapeChar ++ '"' ::
          (':' :: (' ' :: (jdump (lvl + 1) v ++
            (',' :: ('\n' :: (indentChars (lvl + 1) ++
              (jdumpMembers lvl g gs ++
                '\n' :: (indentChars lvl ++ '\x7d' :: rest))))))))) := by
      simp [jdumpMembers, strChars]
    rw [hm]
    simp only [parseMembers]
    rw [skipWs_to_head ws hws '"' _ (by decide)]
    have hval := ihVal (lvl + 1) v [' ']
      (',' :: ('\n' :: (indentChars (lvl + 1) ++ (jdumpMembers lvl g gs ++
        '\n' :: (indentChars lvl ++ '\x7d' :: rest))))) wsOnly_space
      (by simp [msize] at hv; omega) rfl
    simp only [List.cons_append, List.nil_append] at hval
    have hrec := ihMembers lvl g gs ('\n' :: indentChars (lvl + 1)) rest
      (wsOnly_nl_indent _) (by simp [msize] at hv; omega)
    simp only [List.cons_append] at hrec
    have hmk : String.mk k.data = k := rfl
    simp only [Char.reduceEq, if_true, if_false, parseStrBody_escaped_len,
      skipWs_colon, hval, skipWs_comma, hrec, hmk]

/-- The parser recovers every dumped value, item list and member list,
given fuel at least their size. -/
theorem parse_jdump_all : ∀ fuel : Nat,
    (∀ lvl (v : PyVal) (ws rest : List Char), wsOnly ws → vsize v ≤ fuel →
      headDigit rest = false →
      parseVal fuel (ws ++ (jdump lvl v ++ rest)) = some (v, rest)) ∧
    (∀ lvl (v : PyVal) (vs : List PyVal) (ws rest : List Char), wsOnly ws →
      lsize v vs ≤ fuel →
      parseItems fuel (ws ++ (jdumpItems lvl v vs ++
        '\n' :: (indentChars lvl ++ ']' :: rest))) = some (v :: vs, rest)) ∧
    (∀ lvl (f : String × PyVal) (fs : List (String × PyVal)) (ws rest : List Char),
      wsOnly ws → msize f fs ≤ fuel →
      parseMembers fuel (ws ++ (jdumpMembers lvl f fs ++
        '\n' :: (indentChars lvl ++ '\x7d' :: rest))) = some (f :: fs, rest)) := by
  intro fuel
  induction fuel with
  | zero =>
    refine ⟨fun lvl v ws rest _ hv _ => absurd hv ?_,
      fun lvl v vs ws rest _ hv => absurd hv ?_,
      fun lvl f fs ws rest _ hv => absurd hv ?_⟩
    · have := vsize_pos v
      omega
    · have := lsize_pos v vs
      omega
    · have := msize_pos f fs
      omega
  | succ fuel ih =>
    exact ⟨rt_val_step fuel ih.2.1 ih.2.2, rt_items_step fuel ih.1 ih.2.1,
      rt_members_step fuel ih.1 ih.2.2⟩

/-- The parser fuel the sizes demand is covered by the dumped length. -/
theorem size_le_dump : ∀ n : Nat,
    (∀ lvl (v : PyVal), vsize v ≤ n → vsize v ≤ (jdump lvl v).length) ∧
    (∀ lvl (v : PyVal) (vs : List PyVal), lsize v vs ≤ n →
      lsize v vs ≤ (jdumpItems lvl v vs).length + 2) ∧
    (∀ lvl (f : String × PyVal) (fs : List (String × PyVal)), msize f fs ≤ n →
      msize f fs ≤ (jdumpMembers lvl f fs).length + 2) := by
  intro n
  induction n with
  | zero =>
    refine ⟨fun lvl v hv => absurd hv ?_, fun lvl v vs hv => absurd hv ?_,
      fun lvl f fs hv => absurd hv ?_⟩
    · have := vsize_pos v
      omega
    · have := lsize_pos v vs
      omega
    · have := msize_pos f fs
      omega
  | succ n ih =>
    refine ⟨?_, ?_, ?_⟩
    · intro lvl v hv
      cases v with
      | str s =>
        simp only [vsize, jdump, strChars, List.length_cons, List.length_append]
        omega
      | int n2 =>
        by_cases hn : n2 < 0
        · simp only [vsize, jdump, intChars, if_pos hn, List.length_cons]
          omega
        · have hne : 0 < (natChars n2.toNat).length :=
            List.length_pos.mpr (natChars_ne_nil n2.toNat)
          simp only [vsize, jdump, intChars, if_neg hn]
          omega
      | bool b => cases b <;> simp [vsize, jdump]
      | null => simp [vsize, jdump]
      | list xs =>
        cases xs with
        | nil => simp [vsize, jdump]
        | cons v1 vs =>
          have hitem := ih.2.1 lvl v1 vs (by simp [vsize] at hv; omega)
          simp only [vsize, jdump, List.length_cons, List.length_append,
            indentChars, List.length_replicate]
          omega
      | dict fs =>
        cases fs with
        | nil => simp [vsize, jdump]
        | cons f1 fs1 =>
          have hm := ih.2.2 lvl f1 fs1 (by simp [vsize] at hv; omega)
          simp only [vsize, jdump, List.length_cons, List.length_append,
            indentChars, List.length_replicate]
          omega
    · intro lvl v vs hv
      cases vs with
      | nil =>
        have h1 := ih.1 (lvl + 1) v (by simp [lsize] at hv; omega)
        simp only [lsize, jdumpItems]
        omega
      | cons w ws2 =>
        have h1 := ih.1 (lvl + 1) v (by simp [lsize] at hv; omega)
        have h2 := ih.2.1 lvl w ws2 (by simp [lsize] at hv; omega)
        simp only [lsize, jdumpItems, List.length_append, List.length_cons,
          indentChars, List.length_replicate]
        omega
    · intro lvl f fs hv
      obtain ⟨k, v⟩ := f
      cases fs with
      | nil =>
        have h1 := ih.1 (lvl + 1) v (by simp [msize] at hv; omega)
        simp only [msize, jdumpMembers, strChars, List.length_append,
          List.length_cons]
        omega
      | cons g gs =>
        have h1 := ih.1 (lvl + 1) v (by simp [msize] at hv; omega)
        have h2 := ih.2.2 lvl g gs (by simp [msize] at hv; omega)
        simp only [msize, jdumpMembers, strChars, List.length_append,
          List.length_cons, indentChars, List.length_replicate]
        omega

/-- Re-parsing the 4-space-indented dump of any value recovers the
value exactly. -/
theorem parseJson_jdump (v : PyVal) :
    parseJson (String.mk (jdump 0 v)) = some v := by
  have hsize : vsize v ≤ (jdump 0 v).length :=
    (size_le_dump (vsize v)).1 0 v le_rfl
  have hrt := (parse_jdump_all ((jdump 0 v).length + 1)).1 0 v [] [] wsOnly_nil
    (by omega) rfl
  simp only [List.nil_append, List.append_nil] at hrt
  simp only [parseJson]
  rw [hrt]
  simp [skipWs]

/-- Claim C4: the aggregated-JSON encoder serializes the loaded
document list as one 4-space-indented JSON array; re-parsing its output
recovers exactly that list (same length, equal elements, input order),
and the header list has no effect on the JSON download. -/
theorem json_roundtrip (files : List ParsedFile) (h1 h2 : List String) :
    jsonDownloadAction files h1 = jsonDownloadAction files h2 ∧
    parseJson (convert_json_to_json files) =
      some (PyVal.list (loadDocs files).1) :=
  ⟨rfl, parseJson_jdump (PyVal.list (loadDocs files).1)⟩

end JsonToCsv
